import Mathlib

/-!
Verification of the sanitizing markdown renderer of the Blog Writer
repository (src/components/GeneratedPost.tsx) and of the interaction
shell (src/App.tsx).

The renderer is embedded shallowly: each JavaScript regex replacement of
`applyInlineFormatting` becomes an executable scanner over `List Char`
with the same leftmost-match, continue-after-match semantics, and
`renderContent` becomes a fence splitter plus a line-classification loop
with an explicit pending-list buffer.
-/

set_option maxRecDepth 10000

/-- Whitespace characters matched by JavaScript regular-expression class
backslash-s and removed by String.prototype.trim. -/
def isJsWs (c : Char) : Bool :=
  c = ' ' || c = '\t' || c = '\n' || c.val = 11 || c.val = 12 || c = '\r' ||
  c.val = 0xa0 || c.val = 0x1680 || (0x2000 ≤ c.val && c.val ≤ 0x200a) ||
  c.val = 0x2028 || c.val = 0x2029 || c.val = 0x202f || c.val = 0x205f ||
  c.val = 0x3000 || c.val = 0xfeff

/-- Line terminators not matched by the JavaScript regex dot. -/
def isDotNl (c : Char) : Bool :=
  c = '\n' || c = '\r' || c.val = 0x2028 || c.val = 0x2029

/-- Map every character of a list to a list of characters and concatenate
the results in order. -/
def expandChar (f : Char → List Char) : List Char → List Char
  | [] => []
  | c :: t => f c ++ expandChar f t

/-- Replace every occurrence of the character `c` by the string `r`,
the semantics of a global single-character regex replacement. -/
def replaceAllChar (c : Char) (r : List Char) (l : List Char) : List Char :=
  expandChar (fun x => if x = c then r else [x]) l

/-- The HTML-escape pre-pass of applyInlineFormatting: the source chains
three global replacements, ampersand first, then the angle brackets. -/
def escapeHtml (l : List Char) : List Char :=
  replaceAllChar '>' "&gt;".data
    (replaceAllChar '<' "&lt;".data
      (replaceAllChar '&' "&amp;".data l))

/-- Single-character escaping: the combined effect of the three chained
replacements on one raw character. -/
def escChar (c : Char) : List Char :=
  if c = '&' then "&amp;".data
  else if c = '<' then "&lt;".data
  else if c = '>' then "&gt;".data
  else [c]

theorem expandChar_append (f : Char → List Char) (a b : List Char) :
    expandChar f (a ++ b) = expandChar f a ++ expandChar f b := by
  induction a with
  | nil => rfl
  | cons c t ih => simp [expandChar, ih]

theorem escapeHtml_cons (c : Char) (t : List Char) :
    escapeHtml (c :: t) = escChar c ++ escapeHtml t := by
  show replaceAllChar '>' _ (replaceAllChar '<' _
    ((if c = '&' then "&amp;".data else [c]) ++
      expandChar (fun x => if x = '&' then "&amp;".data else [x]) t)) = _
  unfold replaceAllChar
  rw [expandChar_append, expandChar_append]
  congr 1
  by_cases h1 : c = '&'
  · subst h1; decide
  · by_cases h2 : c = '<'
    · subst h2; decide
    · by_cases h3 : c = '>'
      · subst h3; decide
      · simp [h1, h2, h3, escChar, expandChar]

/-- The chained escape passes act exactly once per raw input character:
their composition is the characterwise expansion by `escChar`. -/
theorem escapeHtml_eq_expand (l : List Char) :
    escapeHtml l = expandChar escChar l := by
  induction l with
  | nil => rfl
  | cons c t ih => rw [escapeHtml_cons, ih]; rfl

example : escapeHtml "&amp;".data = "&amp;amp;".data := by decide
example : escapeHtml "<script>".data = "&lt;script&gt;".data := by decide

/-- Opening text of the anchor replacement template, up to the href value. -/
def aT1 : List Char := "<a href=\"".data

/-- Middle text of the anchor template, from the closing href quote to the
end of the opening tag. -/
def aT2 : List Char :=
  "\" target=\"_blank\" rel=\"noopener noreferrer\" class=\"text-indigo-500 hover:underline\">".data

/-- Closing tag of the anchor template. -/
def aT3 : List Char := "</a>".data

/-- Opening tag of the bold replacement template. -/
def strongT1 : List Char := "<strong>".data

/-- Closing tag of the bold replacement template. -/
def strongT2 : List Char := "</strong>".data

/-- Opening tag of the italic replacement templates. -/
def emT1 : List Char := "<em>".data

/-- Closing tag of the italic replacement templates. -/
def emT2 : List Char := "</em>".data

/-- Opening tag of the inline-code replacement template. -/
def codeT1 : List Char :=
  "<code class=\"bg-gray-200 dark:bg-gray-700 rounded-lg px-1.5 py-1 font-mono text-sm\">".data

/-- Closing tag of the inline-code replacement template. -/
def codeT2 : List Char := "</code>".data

/-- Attempt the link regex at the current position: a bracketed nonempty
label, then a parenthesised URL that must start with http(s) scheme and
contain no whitespace and no closing parenthesis. Returns label, the full
URL capture, and the remainder after the closing parenthesis. -/
def linkTry (l : List Char) : Option (List Char × List Char × List Char) :=
  match l with
  | '[' :: t =>
    let label := t.takeWhile (fun c => c != ']')
    match t.dropWhile (fun c => c != ']') with
    | ']' :: '(' :: t3 =>
      if label.isEmpty then none
      else
        match
          (if "https://".data.isPrefixOf t3 then some (("https://".data, t3.drop 8))
           else if "http://".data.isPrefixOf t3 then some (("http://".data, t3.drop 7))
           else none : Option (List Char × List Char)) with
        | some (scheme, t4) =>
          let tl := t4.takeWhile (fun c => !isJsWs c && c != ')')
          match t4.dropWhile (fun c => !isJsWs c && c != ')') with
          | ')' :: rest => if tl.isEmpty then none else some (label, scheme ++ tl, rest)
          | _ => none
        | none => none
    | _ => none
  | _ => none

/-- The link pass matcher: output text, consumed source text, remainder. -/
def linkM (_ : Option Char) (l : List Char) :
    Option (List Char × List Char × List Char) :=
  (linkTry l).map fun p =>
    (aT1 ++ p.2.1 ++ aT2 ++ p.1 ++ aT3,
     '[' :: p.1 ++ ']' :: '(' :: p.2.1 ++ [')'],
     p.2.2)

/-- Scan for the lazily matched closing double asterisk of the bold rule;
the dot class excludes line terminators. -/
def boldClose : List Char → Option (List Char × List Char)
  | [] => none
  | [_] => none
  | c1 :: c2 :: t =>
    if c1 = '*' ∧ c2 = '*' then some ([], t)
    else if isDotNl c1 then none
    else (boldClose (c2 :: t)).map fun p => (c1 :: p.1, p.2)

/-- The bold pass matcher. -/
def boldM (_ : Option Char) (l : List Char) :
    Option (List Char × List Char × List Char) :=
  match l with
  | '*' :: '*' :: t =>
    (boldClose t).map fun p =>
      (strongT1 ++ p.1 ++ strongT2, '*' :: '*' :: (p.1 ++ ['*', '*']), p.2)
  | _ => none

/-- Attempt a single-character-delimited rule (underscore italic, inline
code): delimiter, nonempty run without the delimiter, delimiter. -/
def delimTry (d : Char) (l : List Char) : Option (List Char × List Char) :=
  match l with
  | c :: t =>
    if c = d then
      let cap := t.takeWhile (fun x => x != d)
      match t.dropWhile (fun x => x != d) with
      | c2 :: rest => if c2 = d && !cap.isEmpty then some (cap, rest) else none
      | [] => none
    else none
  | [] => none

/-- The underscore-italic pass matcher. -/
def undM (_ : Option Char) (l : List Char) :
    Option (List Char × List Char × List Char) :=
  (delimTry '_' l).map fun p => (emT1 ++ p.1 ++ emT2, '_' :: p.1 ++ ['_'], p.2)

/-- The inline-code pass matcher. -/
def codeM (_ : Option Char) (l : List Char) :
    Option (List Char × List Char × List Char) :=
  (delimTry '`' l).map fun p => (codeT1 ++ p.1 ++ codeT2, '`' :: p.1 ++ ['`'], p.2)

/-- Scan for the lazily matched closing single asterisk of the
asterisk-italic rule; the closing asterisk must not be followed by another
asterisk, and the lazy class cannot consume an asterisk, so a double
asterisk ahead aborts the whole attempt. -/
def starClose : List Char → Option (List Char × List Char)
  | [] => none
  | [c] => if c = '*' then some ([], []) else none
  | c1 :: c2 :: t =>
    if c1 = '*' then (if c2 = '*' then none else some ([], c2 :: t))
    else (starClose (c2 :: t)).map fun p => (c1 :: p.1, p.2)

/-- The asterisk-italic pass matcher, with the negative lookbehind on the
previous character of the original string and the constraints on the first
inner character. -/
def starM (prev : Option Char) (l : List Char) :
    Option (List Char × List Char × List Char) :=
  if prev = some '*' then none
  else
    match l with
    | '*' :: c1 :: t =>
      if isJsWs c1 || c1 = '*' then none
      else (starClose t).map fun p =>
        (emT1 ++ (c1 :: p.1) ++ emT2, '*' :: c1 :: (p.1 ++ ['*']), p.2)
    | _ => none

/-- Generic left-to-right global replacement scan: at each position, either
replace a match and continue after it, or emit one character; the previous
character of the original string is threaded for lookbehind. -/
def scanAux (m : Option Char → List Char → Option (List Char × List Char × List Char)) :
    Nat → Option Char → List Char → List Char
  | 0, _, l => l
  | _ + 1, _, [] => []
  | n + 1, prev, c :: cs =>
    match m prev (c :: cs) with
    | some (out, consumed, rest) => out ++ scanAux m n consumed.getLast? rest
    | none => c :: scanAux m n (some c) cs

/-- Run one global replacement pass over a string. -/
def runPass (m : Option Char → List Char → Option (List Char × List Char × List Char))
    (l : List Char) : List Char :=
  scanAux m l.length none l

/-- The inline formatter applyInlineFormatting on character lists: escape,
then links, bold, underscore italic, asterisk italic, inline code, in the
source's order. -/
def applyFmtL (l : List Char) : List Char :=
  runPass codeM (runPass starM (runPass undM (runPass boldM (runPass linkM (escapeHtml l)))))

/-- The inline formatter applyInlineFormatting of GeneratedPost.tsx. -/
def applyInlineFormatting (s : String) : String :=
  ⟨applyFmtL s.data⟩

example : applyFmtL "**bold**".data = "<strong>bold</strong>".data := by decide
example : applyFmtL "*i*".data = "<em>i</em>".data := by decide
example : applyFmtL "_i_".data = "<em>i</em>".data := by decide
example : applyFmtL "* item".data = "* item".data := by decide
example : applyFmtL "a *b**c*".data = "a *b**c*".data := by decide
example : applyFmtL "*a* *b*".data = "<em>a</em> <em>b</em>".data := by decide
example : applyFmtL "[a](http://x)".data =
    aT1 ++ "http://x".data ++ aT2 ++ "a".data ++ aT3 := by decide
example : applyFmtL "[click](javascript:alert(1))".data =
    "[click](javascript:alert(1))".data := by decide
example : applyFmtL "`**x**`".data =
    codeT1 ++ "<strong>x</strong>".data ++ codeT2 := by decide

/-- Scan for the lazily matched closing triple backtick of the fenced
code block pattern. -/
def fenceClose : List Char → Option (List Char × List Char)
  | [] => none
  | [_] => none
  | [_, _] => none
  | c1 :: c2 :: c3 :: t =>
    if c1 = '`' ∧ c2 = '`' ∧ c3 = '`' then some ([], t)
    else (fenceClose (c2 :: c3 :: t)).map fun p => (c1 :: p.1, p.2)

/-- Attempt the fenced-block match at the current position: the full
matched text with its delimiters and the remainder. -/
def fenceHere (l : List Char) : Option (List Char × List Char) :=
  match l with
  | '`' :: '`' :: '`' :: t =>
    (fenceClose t).map fun p => ('`' :: '`' :: '`' :: (p.1 ++ ['`', '`', '`']), p.2)
  | _ => none

/-- Find the leftmost fenced-code-block match: returns the gap before the
match, the full matched text with its delimiters, and the remainder. -/
def findFence : List Char → Option (List Char × List Char × List Char)
  | [] => none
  | c :: cs =>
    match fenceHere (c :: cs) with
    | some (m, rest) => some ([], m, rest)
    | none => (findFence cs).map fun p => (c :: p.1, p.2.1, p.2.2)

/-- String.split on the captured fence regex: gaps and matches alternate,
the captured matches are kept in the result. -/
def splitFenceAux : Nat → List Char → List (List Char)
  | 0, l => [l]
  | n + 1, l =>
    match findFence l with
    | none => [l]
    | some (gap, m, rest) => gap :: m :: splitFenceAux n rest

/-- The block splitter of renderContent. -/
def splitFence (l : List Char) : List (List Char) :=
  splitFenceAux l.length l

/-- Strip the opening fence line (backticks plus lowercase language hint
and newline) when it matches. -/
def stripOpenFence (l : List Char) : Option (List Char) :=
  match l with
  | '`' :: '`' :: '`' :: t =>
    match t.dropWhile (fun c => 'a' ≤ c && c ≤ 'z') with
    | '\n' :: r => some r
    | _ => none
  | _ => none

/-- The fence-stripping replacement applied to a code block: remove the
opening fence line when present, and a trailing triple backtick. -/
def stripFences (l : List Char) : List Char :=
  let l1 := (stripOpenFence l).getD l
  if "```".data.isSuffixOf l1 then l1.dropLast.dropLast.dropLast else l1

/-- A rendered content node of a non-fenced block. -/
inductive Node where
  | h2 (html : List Char)
  | h3 (html : List Char)
  | list (items : List (List Char))
  | br
  | para (html : List Char)
  deriving DecidableEq, Repr

/-- A rendered top-level block: a fenced code block or a run of nodes. -/
inductive BlockOut where
  | code (text : List Char)
  | text (nodes : List Node)
  deriving DecidableEq, Repr

/-- String.split on a newline character. -/
def splitLines : List Char → List (List Char)
  | [] => [[]]
  | '\n' :: t => [] :: splitLines t
  | c :: t =>
    match splitLines t with
    | [] => [[c]]
    | h :: r => (c :: h) :: r

/-- JavaScript String.prototype.trim on a character list. -/
def trimChars (l : List Char) : List Char :=
  ((l.dropWhile isJsWs).reverse.dropWhile isJsWs).reverse

/-- The inline-formatted content of a buffered list item: the line minus
its first two characters. -/
def itemHtml (item : List Char) : List Char :=
  applyFmtL (item.drop 2)

/-- Flush the pending list buffer: emit one List node when nonempty. -/
def flushNodes (buf : List (List Char)) (elems : List Node) : List Node :=
  if buf.isEmpty then elems else elems ++ [Node.list (buf.map itemHtml)]

/-- The line-classification loop of renderContent over a non-fenced block,
with the pending list buffer and the emitted elements as explicit state. -/
def processLines : List (List Char) → List (List Char) → List Node → List Node
  | [], buf, elems => flushNodes buf elems
  | line :: rest, buf, elems =>
    if "## ".data.isPrefixOf line then
      processLines rest [] (flushNodes buf elems ++ [Node.h2 (applyFmtL (line.drop 3))])
    else if "### ".data.isPrefixOf line then
      processLines rest [] (flushNodes buf elems ++ [Node.h3 (applyFmtL (line.drop 4))])
    else if "* ".data.isPrefixOf (trimChars line) then
      processLines rest (buf ++ [line]) elems
    else if (trimChars line).isEmpty then
      processLines rest []
        (if (flushNodes buf elems).isEmpty then flushNodes buf elems
         else flushNodes buf elems ++ [Node.br])
    else
      processLines rest [] (flushNodes buf elems ++ [Node.para (applyFmtL line)])

/-- Render one block of the split: blocks starting with a triple backtick
become code blocks with escaped, fence-stripped content; other blocks go
through the line loop. -/
def renderBlock (b : List Char) : BlockOut :=
  if "```".data.isPrefixOf b then BlockOut.code (escapeHtml (stripFences b))
  else BlockOut.text (processLines (splitLines b) [] [])

/-- The renderer renderContent of GeneratedPost.tsx: empty content renders
nothing, otherwise the fence split is rendered block by block. -/
def renderContent (s : String) : List BlockOut :=
  if s.data.isEmpty then [] else (splitFence s.data).map renderBlock

/-- The state owned by the App component: prompt text, loading flag, error
and result strings, plus the count of outstanding generation requests. -/
structure ShellState where
  prompt : String
  isLoading : Bool
  error : Option String
  generatedPost : String
  inFlight : Nat
  deriving DecidableEq, Repr

/-- The initial App state. -/
def initShell : ShellState :=
  { prompt := "", isLoading := false, error := none, generatedPost := "", inFlight := 0 }

/-- The guard and synchronous start of handleGeneratePost: when the
trimmed prompt is empty or a request is loading, nothing happens and no
request is issued; otherwise the loading state is entered, previous error
and result are cleared, and one request goes out. The boolean reports
whether a request was issued. -/
def handleGeneratePostStart (s : ShellState) : ShellState × Bool :=
  if (trimChars s.prompt.data).isEmpty || s.isLoading then (s, false)
  else ({ s with isLoading := true, error := none, generatedPost := "", inFlight := s.inFlight + 1 }, true)

/-- The resolution of an outstanding request: success stores the result,
failure stores the message; the finally clause clears the loading flag. -/
def handleGeneratePostFinish (s : ShellState) (r : Except String String) : ShellState :=
  match r with
  | .ok text => { s with generatedPost := text, isLoading := false, inFlight := s.inFlight - 1 }
  | .error e => { s with error := some e, isLoading := false, inFlight := s.inFlight - 1 }

/-- One interaction step of the shell: clicking generate, a resolution of
an outstanding request, or editing the prompt. -/
inductive ShellStep : ShellState → ShellState → Prop
  | generate (s : ShellState) : ShellStep s (handleGeneratePostStart s).1
  | finish (s : ShellState) (r : Except String String) (h : 0 < s.inFlight) :
      ShellStep s (handleGeneratePostFinish s r)
  | setPrompt (s : ShellState) (p : String) : ShellStep s { s with prompt := p }

/-- States reachable from the initial App state. -/
inductive ShellReachable : ShellState → Prop
  | init : ShellReachable initShell
  | step {s s' : ShellState} : ShellReachable s → ShellStep s s' → ShellReachable s'

/-- The shell invariant: at most one request outstanding, and the loading
flag is set exactly while one is. -/
def ShellInv (s : ShellState) : Prop :=
  s.inFlight ≤ 1 ∧ (s.isLoading = true ↔ s.inFlight = 1)

theorem shellInv_init : ShellInv initShell := by
  constructor <;> simp [initShell]

theorem shellInv_step {s s' : ShellState} (hs : ShellInv s) (h : ShellStep s s') :
    ShellInv s' := by
  obtain ⟨h1, h2⟩ := hs
  cases h with
  | generate =>
    by_cases hg : (trimChars s.prompt.data).isEmpty || s.isLoading
    · simpa [handleGeneratePostStart, hg] using ⟨h1, h2⟩
    · have hld : s.isLoading = false := by
        cases hl : s.isLoading
        · rfl
        · simp [hl] at hg
      have hnf : s.inFlight ≠ 1 := fun hc => by
        rw [hld] at h2
        exact absurd (h2.mpr hc) (by simp)
      simp only [handleGeneratePostStart, hg, if_false]
      refine ⟨?_, ?_⟩ <;> simp <;> omega
  | finish r hf =>
    have h1' : s.inFlight = 1 := Nat.le_antisymm h1 hf
    cases r with
    | ok t =>
      refine ⟨?_, ?_⟩ <;> simp [handleGeneratePostFinish, h1']
    | error e =>
      refine ⟨?_, ?_⟩ <;> simp [handleGeneratePostFinish, h1']
  | setPrompt p => exact ⟨h1, h2⟩

theorem shellInv_reachable {s : ShellState} (h : ShellReachable s) : ShellInv s := by
  induction h with
  | init => exact shellInv_init
  | step _ hstep ih => exact shellInv_step ih hstep

/-- Entity tails: what must follow every ampersand of safe output. -/
def entPats : List (List Char) := ["amp;".data, "lt;".data, "gt;".data]

/-- Tag tails: what must follow every opening angle bracket of safe
output, the fixed set of emitted tags. -/
def ltPats : List (List Char) :=
  ["a href=\"".data, "/a>".data, "strong>".data, "/strong>".data,
   "em>".data, "/em>".data, "code class=\"".data, "/code>".data]

/-- Tag heads: what must precede every closing angle bracket of safe
output. -/
def gtPats : List (List Char) :=
  ["\"".data, "/a".data, "strong".data, "em".data, "/code".data]

/-- The characters consumed as delimiters by some replacement rule. -/
def delims : List Char := ['*', '_', '`', '[', ']', '(', ')']

/-- Every ampersand is the start of one of the three emitted entities. -/
def AmpOK (l : List Char) : Prop :=
  ∀ u v, l = u ++ '&' :: v → ∃ p ∈ entPats, p <+: v

/-- Every opening angle bracket starts one of the emitted tags. -/
def LtOK (l : List Char) : Prop :=
  ∀ u v, l = u ++ '<' :: v → ∃ p ∈ ltPats, p <+: v

/-- Every closing angle bracket ends one of the emitted tags. -/
def GtOK (l : List Char) : Prop :=
  ∀ u v, l = u ++ '>' :: v → ∃ p ∈ gtPats, p <:+ u

/-- Safety of a rendered fragment: angle brackets occur only as the fixed
emitted tags and ampersands only as the three emitted entities. -/
def Good (l : List Char) : Prop := AmpOK l ∧ LtOK l ∧ GtOK l

theorem entPats_delims : ∀ p ∈ entPats, ∀ c ∈ p, c ∉ delims := by decide

theorem ltPats_delims : ∀ p ∈ ltPats, ∀ c ∈ p, c ∉ delims := by decide

theorem gtPats_delims : ∀ p ∈ gtPats, ∀ c ∈ p, c ∉ delims := by decide

theorem two_split {α : Type} {A B u v : List α} {c : α} (h : A ++ B = u ++ c :: v) :
    (∃ v₁, A = u ++ c :: v₁ ∧ v = v₁ ++ B) ∨ (∃ u₂, u = A ++ u₂ ∧ B = u₂ ++ c :: v) := by
  induction A generalizing u with
  | nil =>
    right
    exact ⟨u, by simp, by simpa using h⟩
  | cons a A' ih =>
    cases u with
    | nil =>
      left
      simp only [List.nil_append] at h ⊢
      obtain ⟨h1, h2⟩ := List.cons.injEq .. ▸ h
      exact ⟨A', by rw [h1], h2.symm⟩
    | cons x u' =>
      simp only [List.cons_append] at h
      obtain ⟨h1, h2⟩ := List.cons.injEq .. ▸ h
      rcases ih h2 with ⟨v₁, hA, hv⟩ | ⟨u₂, hu, hB⟩
      · exact Or.inl ⟨v₁, by rw [h1, hA]; rfl, hv⟩
      · exact Or.inr ⟨u₂, by rw [h1, hu]; rfl, hB⟩

theorem three_split {α : Type} {A B C u v : List α} {c : α}
    (h : A ++ B ++ C = u ++ c :: v) :
    (∃ v₁, A = u ++ c :: v₁ ∧ v = v₁ ++ B ++ C) ∨
    (∃ u₂ v₂, B = u₂ ++ c :: v₂ ∧ u = A ++ u₂ ∧ v = v₂ ++ C) ∨
    (∃ u₃, C = u₃ ++ c :: v ∧ u = A ++ B ++ u₃) := by
  rcases two_split h with ⟨v₁, hAB, hv⟩ | ⟨u₃, hu, hC⟩
  · rcases two_split hAB with ⟨v₂, hA, hv₁⟩ | ⟨u₂, hu₁, hB⟩
    · exact Or.inl ⟨v₂, hA, by rw [hv, hv₁]⟩
    · exact Or.inr (Or.inl ⟨u₂, v₁, hB, hu₁, hv⟩)
  · exact Or.inr (Or.inr ⟨u₃, hC, hu⟩)

theorem pre_ext {p v w : List Char} (h : p <+: v) : p <+: v ++ w := by
  obtain ⟨t, ht⟩ := h
  exact ⟨t ++ w, by rw [← ht]; simp⟩

theorem suf_ext {p u a : List Char} (h : p <:+ u) : p <:+ a ++ u := by
  obtain ⟨t, ht⟩ := h
  exact ⟨a ++ t, by rw [← ht]; simp⟩

theorem suf_iff_rev {p u : List Char} : p <:+ u ↔ p.reverse <+: u.reverse := by
  constructor
  · rintro ⟨t, rfl⟩
    exact ⟨t.reverse, by simp⟩
  · rintro ⟨t, ht⟩
    refine ⟨t.reverse, ?_⟩
    have := congrArg List.reverse ht
    simpa using this

theorem pre_cut {p v w' : List Char} {d : Char} (hd : d ∈ delims)
    (hp : ∀ c ∈ p, c ∉ delims) (h : p <+: v ++ d :: w') : p <+: v := by
  induction v generalizing p with
  | nil =>
    cases p with
    | nil => exact List.nil_prefix
    | cons a p' =>
      obtain ⟨t, ht⟩ := h
      simp only [List.nil_append, List.cons_append] at ht
      obtain ⟨h1, _⟩ := List.cons.injEq .. ▸ ht
      exact absurd (h1 ▸ hd) (hp a (by simp))
  | cons x v' ih =>
    cases p with
    | nil => exact List.nil_prefix
    | cons a p' =>
      obtain ⟨t, ht⟩ := h
      simp only [List.cons_append] at ht
      obtain ⟨h1, h2⟩ := List.cons.injEq .. ▸ ht
      have hp' : ∀ c ∈ p', c ∉ delims := fun c hc => hp c (by simp [hc])
      obtain ⟨t', ht'⟩ := ih hp' ⟨t, h2⟩
      exact ⟨t', by rw [h1, List.cons_append, ht']⟩

theorem suf_cut {p u x' : List Char} {d : Char} (hd : d ∈ delims)
    (hp : ∀ c ∈ p, c ∉ delims) (h : p <:+ (x' ++ [d]) ++ u) : p <:+ u := by
  rw [suf_iff_rev] at h ⊢
  have hrev : ((x' ++ [d]) ++ u).reverse = u.reverse ++ d :: x'.reverse := by simp
  rw [hrev] at h
  exact pre_cut hd (fun c hc => hp c (List.mem_reverse.mp hc)) h

theorem pre_take {p v : List Char} (h : p <+: v) (n : Nat) : p.take n <+: v.take n := by
  obtain ⟨t, ht⟩ := h
  refine ⟨t.take (n - p.length), ?_⟩
  rw [← ht, List.take_append_eq_append_take]

theorem good_nil : Good [] := by
  refine ⟨?_, ?_, ?_⟩ <;> intro u v h <;> simp at h

theorem good_append {a b : List Char} (ha : Good a) (hb : Good b) : Good (a ++ b) := by
  obtain ⟨ha1, ha2, ha3⟩ := ha
  obtain ⟨hb1, hb2, hb3⟩ := hb
  refine ⟨?_, ?_, ?_⟩ <;> intro u v h
  · rcases two_split h with ⟨v₁, hA, hv⟩ | ⟨u₂, hu, hB⟩
    · obtain ⟨p, hp, hpre⟩ := ha1 u v₁ hA
      exact ⟨p, hp, hv ▸ pre_ext hpre⟩
    · exact hb1 u₂ v hB
  · rcases two_split h with ⟨v₁, hA, hv⟩ | ⟨u₂, hu, hB⟩
    · obtain ⟨p, hp, hpre⟩ := ha2 u v₁ hA
      exact ⟨p, hp, hv ▸ pre_ext hpre⟩
    · exact hb2 u₂ v hB
  · rcases two_split h with ⟨v₁, hA, hv⟩ | ⟨u₂, hu, hB⟩
    · exact ha3 u v₁ hA
    · obtain ⟨p, hp, hsuf⟩ := hb3 u₂ v hB
      exact ⟨p, hp, hu ▸ suf_ext hsuf⟩

theorem good_cut {X M Y : List Char} (h : Good (X ++ M ++ Y))
    (hX : X = [] ∨ ∃ X' d, d ∈ delims ∧ X = X' ++ [d])
    (hY : Y = [] ∨ ∃ d Y', d ∈ delims ∧ Y = d :: Y') : Good M := by
  obtain ⟨h1, h2, h3⟩ := h
  refine ⟨?_, ?_, ?_⟩ <;> intro u v hM
  · have heq : X ++ M ++ Y = (X ++ u) ++ '&' :: (v ++ Y) := by rw [hM]; simp
    obtain ⟨p, hp, hpre⟩ := h1 (X ++ u) (v ++ Y) heq
    rcases hY with rfl | ⟨d, Y', hd, rfl⟩
    · exact ⟨p, hp, by simpa using hpre⟩
    · exact ⟨p, hp, pre_cut hd (entPats_delims p hp) hpre⟩
  · have heq : X ++ M ++ Y = (X ++ u) ++ '<' :: (v ++ Y) := by rw [hM]; simp
    obtain ⟨p, hp, hpre⟩ := h2 (X ++ u) (v ++ Y) heq
    rcases hY with rfl | ⟨d, Y', hd, rfl⟩
    · exact ⟨p, hp, by simpa using hpre⟩
    · exact ⟨p, hp, pre_cut hd (ltPats_delims p hp) hpre⟩
  · have heq : X ++ M ++ Y = (X ++ u) ++ '>' :: (v ++ Y) := by rw [hM]; simp
    obtain ⟨p, hp, hsuf⟩ := h3 (X ++ u) (v ++ Y) heq
    rcases hX with rfl | ⟨X', d, hd, rfl⟩
    · exact ⟨p, hp, by simpa using hsuf⟩
    · exact ⟨p, hp, suf_cut hd (gtPats_delims p hp) hsuf⟩

theorem good_sandwich {L M R N : List Char} (h : Good (L ++ M ++ R))
    (hM1 : ∃ d M₁, d ∈ delims ∧ M = d :: M₁)
    (hM2 : ∃ M₂ d, d ∈ delims ∧ M = M₂ ++ [d])
    (hN : Good N) : Good (L ++ N ++ R) := by
  obtain ⟨h1, h2, h3⟩ := h
  obtain ⟨g1, g2, g3⟩ := hN
  obtain ⟨d1, M₁, hd1, hMd1⟩ := hM1
  obtain ⟨M₂, d2, hd2, hMd2⟩ := hM2
  refine ⟨?_, ?_, ?_⟩ <;> intro u v heq
  · rcases three_split heq with ⟨v₁, hL, hv⟩ | ⟨u₂, v₂, hMm, hu, hv⟩ | ⟨u₃, hR, hu⟩
    · have horig : L ++ M ++ R = u ++ '&' :: (v₁ ++ M ++ R) := by rw [hL]; simp
      obtain ⟨p, hp, hpre⟩ := h1 u (v₁ ++ M ++ R) horig
      have hpre2 : p <+: v₁ ++ M ++ R := hpre
      rw [hMd1, List.append_assoc] at hpre2
      have := pre_cut hd1 (entPats_delims p hp) (by simpa using hpre2)
      exact ⟨p, hp, hv ▸ pre_ext (pre_ext this)⟩
    · obtain ⟨p, hp, hpre⟩ := g1 u₂ v₂ hMm
      exact ⟨p, hp, hv ▸ pre_ext hpre⟩
    · have horig : L ++ M ++ R = (L ++ M ++ u₃) ++ '&' :: v := by rw [hR]; simp
      obtain ⟨p, hp, hpre⟩ := h1 (L ++ M ++ u₃) v horig
      exact ⟨p, hp, hpre⟩
  · rcases three_split heq with ⟨v₁, hL, hv⟩ | ⟨u₂, v₂, hMm, hu, hv⟩ | ⟨u₃, hR, hu⟩
    · have horig : L ++ M ++ R = u ++ '<' :: (v₁ ++ M ++ R) := by rw [hL]; simp
      obtain ⟨p, hp, hpre⟩ := h2 u (v₁ ++ M ++ R) horig
      have hpre2 : p <+: v₁ ++ M ++ R := hpre
      rw [hMd1, List.append_assoc] at hpre2
      have := pre_cut hd1 (ltPats_delims p hp) (by simpa using hpre2)
      exact ⟨p, hp, hv ▸ pre_ext (pre_ext this)⟩
    · obtain ⟨p, hp, hpre⟩ := g2 u₂ v₂ hMm
      exact ⟨p, hp, hv ▸ pre_ext hpre⟩
    · have horig : L ++ M ++ R = (L ++ M ++ u₃) ++ '<' :: v := by rw [hR]; simp
      obtain ⟨p, hp, hpre⟩ := h2 (L ++ M ++ u₃) v horig
      exact ⟨p, hp, hpre⟩
  · rcases three_split heq with ⟨v₁, hL, hv⟩ | ⟨u₂, v₂, hMm, hu, hv⟩ | ⟨u₃, hR, hu⟩
    · have horig : L ++ M ++ R = u ++ '>' :: (v₁ ++ M ++ R) := by rw [hL]; simp
      obtain ⟨p, hp, hsuf⟩ := h3 u (v₁ ++ M ++ R) horig
      exact ⟨p, hp, hsuf⟩
    · obtain ⟨p, hp, hsuf⟩ := g3 u₂ v₂ hMm
      exact ⟨p, hp, hu ▸ suf_ext hsuf⟩
    · have horig : L ++ M ++ R = (L ++ M ++ u₃) ++ '>' :: v := by rw [hR]; simp
      obtain ⟨p, hp, hsuf⟩ := h3 (L ++ M ++ u₃) v horig
      have hsuf2 : p <:+ ((L ++ M₂) ++ [d2]) ++ u₃ := by
        rw [hMd2] at hsuf
        simpa using hsuf
      have := suf_cut hd2 (gtPats_delims p hp) hsuf2
      exact ⟨p, hp, hu ▸ suf_ext this⟩

/-- Decidable checker for `Good` on concrete lists. -/
def goodB (l : List Char) : Bool :=
  (List.range l.length).all fun i =>
    ((l.drop i).head?.all fun c =>
      (if c = '&' then entPats.any fun p => p.isPrefixOf (l.drop (i + 1)) else true) &&
      (if c = '<' then ltPats.any fun p => p.isPrefixOf (l.drop (i + 1)) else true) &&
      (if c = '>' then gtPats.any fun p => p.isSuffixOf (l.take i) else true))

theorem isPrefixOfE {p l : List Char} (h : p.isPrefixOf l = true) : p <+: l := by
  induction p generalizing l with
  | nil => exact List.nil_prefix
  | cons a p' ih =>
    cases l with
    | nil => simp [List.isPrefixOf] at h
    | cons b l' =>
      simp only [List.isPrefixOf, Bool.and_eq_true, beq_iff_eq] at h
      obtain ⟨t, ht⟩ := ih h.2
      exact ⟨t, by rw [h.1, List.cons_append, ht]⟩

theorem isSuffixOfE {p l : List Char} (h : p.isSuffixOf l = true) : p <:+ l := by
  rw [List.isSuffixOf] at h
  rw [suf_iff_rev]
  exact isPrefixOfE h

theorem goodB_good {l : List Char} (h : goodB l = true) : Good l := by
  rw [goodB, List.all_eq_true] at h
  refine ⟨?_, ?_, ?_⟩ <;> intro u v heq
  · have hi : u.length < l.length := by rw [heq]; simp
    have hh := h u.length (List.mem_range.mpr hi)
    rw [heq] at hh
    rw [List.drop_left] at hh
    have hdrop : (u ++ '&' :: v).drop (u.length + 1) = v := by
      have : u ++ '&' :: v = (u ++ ['&']) ++ v := by simp
      rw [this, show u.length + 1 = (u ++ ['&']).length by simp, List.drop_left]
    rw [hdrop] at hh
    simp only [List.head?_cons, Option.all_some, if_pos rfl] at hh
    have h1 : (entPats.any fun p => p.isPrefixOf v) = true := by
      simp only [Bool.and_eq_true] at hh
      have := hh.1
      simpa using this
    rw [List.any_eq_true] at h1
    obtain ⟨p, hp, hpre⟩ := h1
    exact ⟨p, hp, isPrefixOfE hpre⟩
  · have hi : u.length < l.length := by rw [heq]; simp
    have hh := h u.length (List.mem_range.mpr hi)
    rw [heq] at hh
    rw [List.drop_left] at hh
    have hdrop : (u ++ '<' :: v).drop (u.length + 1) = v := by
      have : u ++ '<' :: v = (u ++ ['<']) ++ v := by simp
      rw [this, show u.length + 1 = (u ++ ['<']).length by simp, List.drop_left]
    rw [hdrop] at hh
    simp only [List.head?_cons, Option.all_some, if_pos rfl] at hh
    have h1 : (ltPats.any fun p => p.isPrefixOf v) = true := by
      simp only [Bool.and_eq_true] at hh
      have := hh.1.2
      simpa using this
    rw [List.any_eq_true] at h1
    obtain ⟨p, hp, hpre⟩ := h1
    exact ⟨p, hp, isPrefixOfE hpre⟩
  · have hi : u.length < l.length := by rw [heq]; simp
    have hh := h u.length (List.mem_range.mpr hi)
    rw [heq] at hh
    rw [List.drop_left] at hh
    have htake : (u ++ '>' :: v).take u.length = u := List.take_left ..
    rw [htake] at hh
    simp only [List.head?_cons, Option.all_some, if_pos rfl] at hh
    have h1 : (gtPats.any fun p => p.isSuffixOf u) = true := by
      simp only [Bool.and_eq_true] at hh
      have := hh.2
      simpa using this
    rw [List.any_eq_true] at h1
    obtain ⟨p, hp, hsuf⟩ := h1
    exact ⟨p, hp, isSuffixOfE hsuf⟩

theorem good_aT1 : Good aT1 := goodB_good (by decide)

theorem good_aT2 : Good aT2 := goodB_good (by decide)

theorem good_aT3 : Good aT3 := goodB_good (by decide)

theorem good_strongT1 : Good strongT1 := goodB_good (by decide)

theorem good_strongT2 : Good strongT2 := goodB_good (by decide)

theorem good_emT1 : Good emT1 := goodB_good (by decide)

theorem good_emT2 : Good emT2 := goodB_good (by decide)

theorem good_codeT1 : Good codeT1 := goodB_good (by decide)

theorem good_codeT2 : Good codeT2 := goodB_good (by decide)

theorem good_single {c : Char} (h1 : c ≠ '&') (h2 : c ≠ '<') (h3 : c ≠ '>') :
    Good [c] := by
  refine ⟨?_, ?_, ?_⟩ <;> intro u v heq
  · exfalso
    cases u with
    | nil => simp at heq; exact h1 heq.1
    | cons a u' => simp at heq
  · exfalso
    cases u with
    | nil => simp at heq; exact h2 heq.1
    | cons a u' => simp at heq
  · exfalso
    cases u with
    | nil => simp at heq; exact h3 heq.1
    | cons a u' => simp at heq

theorem good_escChar (c : Char) : Good (escChar c) := by
  by_cases h1 : c = '&'
  · subst h1; exact goodB_good (by decide)
  · by_cases h2 : c = '<'
    · subst h2; exact goodB_good (by decide)
    · by_cases h3 : c = '>'
      · subst h3; exact goodB_good (by decide)
      · rw [escChar, if_neg h1, if_neg h2, if_neg h3]
        exact good_single h1 h2 h3

/-- The escaped pre-pass output is safe. -/
theorem good_escape (l : List Char) : Good (escapeHtml l) := by
  induction l with
  | nil => exact good_nil
  | cons c t ih => rw [escapeHtml_cons]; exact good_append (good_escChar c) ih

/-- A matcher preserves safety: matches reconstruct the input, and the
replacement is safe in any safe context. -/
def PassH (m : Option Char → List Char → Option (List Char × List Char × List Char)) : Prop :=
  ∀ prev l out consumed rest, m prev l = some (out, consumed, rest) →
    l = consumed ++ rest ∧ ∀ L R, Good (L ++ (consumed ++ R)) → Good (L ++ (out ++ R))

theorem scan_good {m : Option Char → List Char → Option (List Char × List Char × List Char)}
    (H : PassH m) :
    ∀ fuel prev l L, Good (L ++ l) → Good (L ++ scanAux m fuel prev l) := by
  intro fuel
  induction fuel with
  | zero => intro prev l L h; simpa [scanAux] using h
  | succ n ih =>
    intro prev l L h
    cases l with
    | nil => simpa [scanAux] using h
    | cons c cs =>
      rw [scanAux]
      cases hm : m prev (c :: cs) with
      | none =>
        simp only [hm]
        have h' : Good ((L ++ [c]) ++ cs) := by simpa using h
        have := ih (some c) cs (L ++ [c]) h'
        simpa using this
      | some t =>
        obtain ⟨out, consumed, rest⟩ := t
        simp only [hm]
        obtain ⟨hrec, htrans⟩ := H prev (c :: cs) out consumed rest hm
        have h1 : Good (L ++ (consumed ++ rest)) := by rw [hrec] at h; simpa using h
        have h2 := htrans L rest h1
        have h3 : Good ((L ++ out) ++ rest) := by simpa using h2
        have := ih consumed.getLast? rest (L ++ out) h3
        simpa using this

theorem runPass_good {m : Option Char → List Char → Option (List Char × List Char × List Char)}
    (H : PassH m) {l : List Char} (h : Good l) : Good (runPass m l) := by
  have := scan_good H l.length none l []
  simpa using this (by simpa using h)

theorem boldClose_spec : ∀ l cap rest, boldClose l = some (cap, rest) →
    l = cap ++ '*' :: '*' :: rest := by
  intro l
  induction l with
  | nil => intro cap rest h; simp [boldClose] at h
  | cons c1 t ih =>
    intro cap rest h
    cases t with
    | nil => simp [boldClose] at h
    | cons c2 t' =>
      rw [boldClose] at h
      by_cases h12 : c1 = '*' ∧ c2 = '*'
      · rw [if_pos h12] at h
        simp only [Option.some.injEq, Prod.mk.injEq] at h
        obtain ⟨h1, h2⟩ := h
        subst h1; subst h2
        simp [h12.1, h12.2]
      · rw [if_neg h12] at h
        by_cases hnl : isDotNl c1
        · rw [if_pos hnl] at h; simp at h
        · rw [if_neg hnl] at h
          cases hbc : boldClose (c2 :: t') with
          | none => rw [hbc] at h; simp at h
          | some p =>
            obtain ⟨p1, p2⟩ := p
            rw [hbc] at h
            simp only [Option.map_some', Option.some.injEq, Prod.mk.injEq] at h
            obtain ⟨h1, h2⟩ := h
            subst h1; subst h2
            have := ih p1 p2 hbc
            rw [this]
            simp

theorem passH_bold : PassH boldM := by
  intro prev l out consumed rest hm
  unfold boldM at hm
  split at hm
  case _ t =>
    cases hbc : boldClose t with
    | none => rw [hbc] at hm; simp at hm
    | some p =>
      obtain ⟨cap, rst⟩ := p
      rw [hbc] at hm
      simp only [Option.map_some', Option.some.injEq, Prod.mk.injEq] at hm
      obtain ⟨ho, hc, hr⟩ := hm
      subst ho; subst hc; subst hr
      have hrec := boldClose_spec t cap rst hbc
      constructor
      · rw [hrec]; simp
      · intro L R hG
        have hGa : Good ((L ++ ['*', '*']) ++ cap ++ (['*', '*'] ++ R)) := by
          have heq : L ++ (('*' :: '*' :: (cap ++ ['*', '*'])) ++ R) =
              (L ++ ['*', '*']) ++ cap ++ (['*', '*'] ++ R) := by simp
          rw [← heq]; exact hG
        have hcap : Good cap := by
          refine good_cut hGa ?_ ?_
          · right; exact ⟨L ++ ['*'], '*', by decide, by simp⟩
          · right; exact ⟨'*', '*' :: R, by decide, rfl⟩
        have hout : Good (strongT1 ++ cap ++ strongT2) :=
          good_append (good_append good_strongT1 hcap) good_strongT2
        have hsand := good_sandwich (M := '*' :: '*' :: (cap ++ ['*', '*']))
          (N := strongT1 ++ cap ++ strongT2)
          (by simpa using hG)
          ⟨'*', '*' :: (cap ++ ['*', '*']), by decide, rfl⟩
          ⟨'*' :: '*' :: (cap ++ ['*']), '*', by decide, by simp⟩
          hout
        simpa using hsand
  case _ =>
    simp at hm

theorem delimTry_spec {d : Char} {l cap rest : List Char}
    (h : delimTry d l = some (cap, rest)) : l = d :: cap ++ d :: rest := by
  cases l with
  | nil => simp [delimTry] at h
  | cons c t =>
    rw [delimTry] at h
    by_cases hc : c = d
    · rw [if_pos hc] at h
      cases hdw : t.dropWhile (fun x => x != d) with
      | nil => rw [hdw] at h; simp at h
      | cons c2 r =>
        rw [hdw] at h
        by_cases hcond : (c2 = d && !(t.takeWhile (fun x => x != d)).isEmpty) = true
        · have hc2 : c2 = d := by
            simp only [Bool.and_eq_true, decide_eq_true_eq] at hcond
            exact hcond.1
          simp only [hcond, if_true] at h
          simp only [Option.some.injEq, Prod.mk.injEq] at h
          obtain ⟨h1, h2⟩ := h
          subst h1; subst h2
          have ht : t = t.takeWhile (fun x => x != d) ++ c2 :: r := by
            conv_lhs => rw [← List.takeWhile_append_dropWhile (p := fun x => x != d) (l := t)]
            rw [hdw]
          rw [hc2] at ht
          rw [hc]
          conv_lhs => rw [ht]
          simp
        · simp only [hcond, if_false] at h
          simp at h
    · rw [if_neg hc] at h; simp at h

theorem passH_delim {d : Char} {T1 T2 : List Char} (hd : d ∈ delims)
    (hT1 : Good T1) (hT2 : Good T2)
    {m : Option Char → List Char → Option (List Char × List Char × List Char)}
    (hm : ∀ prev l, m prev l =
      (delimTry d l).map fun p => (T1 ++ p.1 ++ T2, d :: p.1 ++ [d], p.2)) :
    PassH m := by
  intro prev l out consumed rest h
  rw [hm] at h
  cases hdt : delimTry d l with
  | none => rw [hdt] at h; simp at h
  | some p =>
    obtain ⟨cap, rst⟩ := p
    rw [hdt] at h
    simp only [Option.map_some', Option.some.injEq, Prod.mk.injEq] at h
    obtain ⟨ho, hc, hr⟩ := h
    subst ho; subst hc; subst hr
    have hrec := delimTry_spec hdt
    constructor
    · rw [hrec]; simp
    · intro L R hG
      have hGa : Good ((L ++ [d]) ++ cap ++ (d :: R)) := by
        have heq : L ++ ((d :: cap ++ [d]) ++ R) = (L ++ [d]) ++ cap ++ (d :: R) := by simp
        rw [← heq]; exact hG
      have hcap : Good cap := by
        refine good_cut hGa ?_ ?_
        · right; exact ⟨L, d, hd, rfl⟩
        · right; exact ⟨d, R, hd, rfl⟩
      have hout : Good (T1 ++ cap ++ T2) :=
        good_append (good_append hT1 hcap) hT2
      have hsand := good_sandwich (M := d :: cap ++ [d]) (N := T1 ++ cap ++ T2)
        (by simpa using hG)
        ⟨d, cap ++ [d], hd, rfl⟩
        ⟨d :: cap, d, hd, by simp⟩
        hout
      simpa using hsand

theorem passH_und : PassH undM :=
  passH_delim (by decide) good_emT1 good_emT2 (fun prev l => rfl)

theorem passH_code : PassH codeM :=
  passH_delim (by decide) good_codeT1 good_codeT2 (fun prev l => rfl)

theorem starClose_spec : ∀ l cap rest, starClose l = some (cap, rest) →
    l = cap ++ '*' :: rest := by
  intro l
  induction l with
  | nil => intro cap rest h; simp [starClose] at h
  | cons c1 t ih =>
    intro cap rest h
    cases t with
    | nil =>
      rw [starClose] at h
      by_cases hc : c1 = '*'
      · rw [if_pos hc] at h
        simp only [Option.some.injEq, Prod.mk.injEq] at h
        obtain ⟨h1, h2⟩ := h
        subst h1; subst h2
        simp [hc]
      · rw [if_neg hc] at h; simp at h
    | cons c2 t' =>
      rw [starClose] at h
      by_cases hc : c1 = '*'
      · rw [if_pos hc] at h
        by_cases hc2 : c2 = '*'
        · rw [if_pos hc2] at h; simp at h
        · rw [if_neg hc2] at h
          simp only [Option.some.injEq, Prod.mk.injEq] at h
          obtain ⟨h1, h2⟩ := h
          subst h1; subst h2
          simp [hc]
      · rw [if_neg hc] at h
        cases hsc : starClose (c2 :: t') with
        | none => rw [hsc] at h; simp at h
        | some p =>
          obtain ⟨p1, p2⟩ := p
          rw [hsc] at h
          simp only [Option.map_some', Option.some.injEq, Prod.mk.injEq] at h
          obtain ⟨h1, h2⟩ := h
          subst h1; subst h2
          have := ih p1 p2 hsc
          rw [this]
          simp

theorem passH_star : PassH starM := by
  intro prev l out consumed rest hm
  unfold starM at hm
  by_cases hprev : prev = some '*'
  · rw [if_pos hprev] at hm; simp at hm
  · rw [if_neg hprev] at hm
    split at hm
    case _ c1 t =>
      by_cases hc1 : (isJsWs c1 || c1 = '*') = true
      · rw [if_pos hc1] at hm; simp at hm
      · rw [if_neg hc1] at hm
        cases hsc : starClose t with
        | none => rw [hsc] at hm; simp at hm
        | some p =>
          obtain ⟨cap, rst⟩ := p
          rw [hsc] at hm
          simp only [Option.map_some', Option.some.injEq, Prod.mk.injEq] at hm
          obtain ⟨ho, hc, hr⟩ := hm
          subst ho; subst hc; subst hr
          have hrec := starClose_spec t cap rst hsc
          constructor
          · rw [hrec]; simp
          · intro L R hG
            have hGa : Good ((L ++ ['*']) ++ (c1 :: cap) ++ ('*' :: R)) := by
              have heq : L ++ (('*' :: c1 :: (cap ++ ['*'])) ++ R) =
                  (L ++ ['*']) ++ (c1 :: cap) ++ ('*' :: R) := by simp
              rw [← heq]; exact hG
            have hcap : Good (c1 :: cap) := by
              refine good_cut hGa ?_ ?_
              · right; exact ⟨L, '*', by decide, rfl⟩
              · right; exact ⟨'*', R, by decide, rfl⟩
            have hout : Good (emT1 ++ (c1 :: cap) ++ emT2) :=
              good_append (good_append good_emT1 hcap) good_emT2
            have hsand := good_sandwich (M := '*' :: c1 :: (cap ++ ['*']))
              (N := emT1 ++ (c1 :: cap) ++ emT2)
              (by simpa using hG)
              ⟨'*', c1 :: (cap ++ ['*']), by decide, rfl⟩
              ⟨'*' :: c1 :: cap, '*', by decide, by simp⟩
              hout
            simpa using hsand
    case _ =>
      simp at hm

theorem prefix_drop {p l : List Char} (h : p.isPrefixOf l = true) :
    l = p ++ l.drop p.length := by
  obtain ⟨t, ht⟩ := isPrefixOfE h
  rw [← ht, List.drop_left]

theorem mem_takeWhileE {p : Char → Bool} :
    ∀ {l : List Char} {c : Char}, c ∈ l.takeWhile p → p c = true := by
  intro l
  induction l with
  | nil => intro c hc; simp [List.takeWhile] at hc
  | cons a t ih =>
    intro c hc
    rw [List.takeWhile] at hc
    cases hp : p a with
    | false => rw [hp] at hc; simp at hc
    | true =>
      rw [hp] at hc
      rcases List.mem_cons.mp hc with rfl | hmem
      · exact hp
      · exact ih hmem

theorem linkTry_spec {l label url rest : List Char}
    (h : linkTry l = some (label, url, rest)) :
    l = '[' :: label ++ ']' :: '(' :: url ++ ')' :: rest ∧
    ("http://".data <+: url ∨ "https://".data <+: url) ∧
    (∀ c ∈ url, isJsWs c = false ∧ c ≠ ')') := by
  unfold linkTry at h
  split at h
  case _ t =>
    split at h
    case _ t3 hdw =>
      by_cases hemp : (t.takeWhile fun c => c != ']').isEmpty
      · rw [if_pos hemp] at h; simp at h
      · rw [if_neg hemp] at h
        split at h
        case _ scheme t4 hsch =>
          split at h
          case _ rest' hdw4 =>
            by_cases htl : (t4.takeWhile fun c => !isJsWs c && c != ')').isEmpty
            · rw [if_pos htl] at h; simp at h
            · rw [if_neg htl] at h
              simp only [Option.some.injEq, Prod.mk.injEq] at h
              obtain ⟨h1, h2, h3⟩ := h
              subst h1; subst h2; subst h3
              have hsch' : (t3 = "https://".data ++ t4 ∧ scheme = "https://".data) ∨
                  (t3 = "http://".data ++ t4 ∧ scheme = "http://".data) := by
                by_cases hps : "https://".data.isPrefixOf t3
                · rw [if_pos hps] at hsch
                  simp only [Option.some.injEq, Prod.mk.injEq] at hsch
                  obtain ⟨hs1, hs2⟩ := hsch
                  left
                  refine ⟨?_, hs1.symm⟩
                  rw [← hs2]
                  exact prefix_drop hps
                · rw [if_neg hps] at hsch
                  by_cases hpp : "http://".data.isPrefixOf t3
                  · rw [if_pos hpp] at hsch
                    simp only [Option.some.injEq, Prod.mk.injEq] at hsch
                    obtain ⟨hs1, hs2⟩ := hsch
                    right
                    refine ⟨?_, hs1.symm⟩
                    rw [← hs2]
                    exact prefix_drop hpp
                  · rw [if_neg hpp] at hsch; simp at hsch
              have h3eq : t3 = scheme ++ t4 := by
                rcases hsch' with ⟨a, b⟩ | ⟨a, b⟩ <;> rw [b] <;> exact a
              have ht4 : t4 = (t4.takeWhile fun c => !isJsWs c && c != ')') ++ ')' :: rest' := by
                conv_lhs =>
                  rw [← List.takeWhile_append_dropWhile (p := fun c => !isJsWs c && c != ')') (l := t4),
                    hdw4]
              refine ⟨?_, ?_, ?_⟩
              · show '[' :: t = _
                conv_lhs =>
                  rw [← List.takeWhile_append_dropWhile (p := fun c => c != ']') (l := t),
                    hdw, h3eq]
                conv_lhs => rw [ht4]
                simp
              · rcases hsch' with ⟨a, b⟩ | ⟨a, b⟩
                · right; rw [b]; exact ⟨_, rfl⟩
                · left; rw [b]; exact ⟨_, rfl⟩
              · intro c hc
                rcases List.mem_append.mp hc with hcs | hctl
                · rcases hsch' with ⟨a, b⟩ | ⟨a, b⟩ <;> rw [b] at hcs
                  · fin_cases hcs <;> decide
                  · fin_cases hcs <;> decide
                · have := mem_takeWhileE hctl
                  simp only [Bool.and_eq_true, Bool.not_eq_true', bne_iff_ne] at this
                  exact this
          case _ hne =>
            simp at h
        case _ hne =>
          simp at h
    case _ hne =>
      simp at h
  case _ hne =>
    simp at h

theorem passH_link : PassH linkM := by
  intro prev l out consumed rest hm
  rw [linkM] at hm
  cases hlt : linkTry l with
  | none => rw [hlt] at hm; simp at hm
  | some p =>
    obtain ⟨label, url, rst⟩ := p
    rw [hlt] at hm
    simp only [Option.map_some', Option.some.injEq, Prod.mk.injEq] at hm
    obtain ⟨ho, hc, hr⟩ := hm
    subst ho; subst hc; subst hr
    obtain ⟨hrec, hsch, hmem⟩ := linkTry_spec hlt
    constructor
    · rw [hrec]; simp
    · intro L R hG
      have hGa : Good ((L ++ ['[']) ++ label ++ ((']' :: '(' :: (url ++ [')'])) ++ R)) := by
        have heq : L ++ (('[' :: label ++ ']' :: '(' :: url ++ [')']) ++ R) =
            (L ++ ['[']) ++ label ++ ((']' :: '(' :: (url ++ [')'])) ++ R) := by simp
        rw [← heq]; exact hG
      have hlabel : Good label := by
        refine good_cut hGa ?_ ?_
        · right; exact ⟨L, '[', by decide, rfl⟩
        · right; exact ⟨']', '(' :: (url ++ [')']) ++ R, by decide, rfl⟩
      have hGb : Good ((L ++ ('[' :: label) ++ [']', '(']) ++ url ++ (')' :: R)) := by
        have heq : L ++ (('[' :: label ++ ']' :: '(' :: url ++ [')']) ++ R) =
            (L ++ ('[' :: label) ++ [']', '(']) ++ url ++ (')' :: R) := by simp
        rw [← heq]; exact hG
      have hurl : Good url := by
        refine good_cut hGb ?_ ?_
        · right; exact ⟨L ++ ('[' :: label) ++ [']'], '(', by decide, by simp⟩
        · right; exact ⟨')', R, by decide, rfl⟩
      have hout : Good (aT1 ++ url ++ aT2 ++ label ++ aT3) :=
        good_append (good_append (good_append (good_append good_aT1 hurl) good_aT2) hlabel) good_aT3
      have hsand := good_sandwich (M := '[' :: label ++ ']' :: '(' :: url ++ [')'])
        (N := aT1 ++ url ++ aT2 ++ label ++ aT3)
        (by simpa using hG)
        ⟨'[', label ++ ']' :: '(' :: url ++ [')'], by decide, rfl⟩
        ⟨'[' :: label ++ ']' :: '(' :: url, ')', by decide, by simp⟩
        hout
      simpa using hsand

/-- Every pass of the inline formatter preserves safety, so the full
formatter output is safe for every input string. -/
theorem good_applyFmtL (l : List Char) : Good (applyFmtL l) :=
  runPass_good passH_code
    (runPass_good passH_star
      (runPass_good passH_und
        (runPass_good passH_bold
          (runPass_good passH_link (good_escape l)))))

theorem good_no_script {l : List Char} (h : Good l) : ¬ ("<script".data <:+: l) := by
  rintro ⟨s, t, hst⟩
  have hl : l = s ++ '<' :: ("script".data ++ t) := by rw [← hst]; simp
  obtain ⟨p, hp, hpre⟩ := h.2.1 s _ hl
  have h2 := pre_take hpre 2
  have hv2 : ("script".data ++ t).take 2 = ['s', 'c'] := by
    rw [List.take_append_of_le_length (by simp)]
    decide
  rw [hv2] at h2
  fin_cases hp <;> exact absurd h2 (by decide)

theorem fenceClose_spec : ∀ l cap rest, fenceClose l = some (cap, rest) →
    l = cap ++ '`' :: '`' :: '`' :: rest := by
  intro l
  induction l with
  | nil => intro cap rest h; simp [fenceClose] at h
  | cons c1 t ih =>
    intro cap rest h
    cases t with
    | nil => simp [fenceClose] at h
    | cons c2 t' =>
      cases t' with
      | nil => simp [fenceClose] at h
      | cons c3 t'' =>
        rw [fenceClose] at h
        by_cases h123 : c1 = '`' ∧ c2 = '`' ∧ c3 = '`'
        · rw [if_pos h123] at h
          simp only [Option.some.injEq, Prod.mk.injEq] at h
          obtain ⟨h1, h2⟩ := h
          subst h1; subst h2
          simp [h123.1, h123.2.1, h123.2.2]
        · rw [if_neg h123] at h
          cases hfc : fenceClose (c2 :: c3 :: t'') with
          | none => rw [hfc] at h; simp at h
          | some p =>
            obtain ⟨p1, p2⟩ := p
            rw [hfc] at h
            simp only [Option.map_some', Option.some.injEq, Prod.mk.injEq] at h
            obtain ⟨h1, h2⟩ := h
            subst h1; subst h2
            have := ih p1 p2 hfc
            rw [this]
            simp

theorem fenceHere_spec {l m rest : List Char} (h : fenceHere l = some (m, rest)) :
    l = m ++ rest := by
  unfold fenceHere at h
  split at h
  case _ t =>
    cases hfc : fenceClose t with
    | none => rw [hfc] at h; simp at h
    | some p =>
      obtain ⟨inner, rst⟩ := p
      rw [hfc] at h
      simp only [Option.map_some', Option.some.injEq, Prod.mk.injEq] at h
      obtain ⟨h1, h2⟩ := h
      subst h1; subst h2
      have := fenceClose_spec t inner rst hfc
      rw [this]
      simp
  case _ =>
    simp at h

theorem findFence_spec : ∀ l g m rest, findFence l = some (g, m, rest) →
    l = g ++ m ++ rest := by
  intro l
  induction l with
  | nil => intro g m rest h; simp [findFence] at h
  | cons c cs ih =>
    intro g m rest h
    rw [findFence] at h
    cases hfh : fenceHere (c :: cs) with
    | some p =>
      obtain ⟨m', rst'⟩ := p
      rw [hfh] at h
      simp only [Option.some.injEq, Prod.mk.injEq] at h
      obtain ⟨h1, h2, h3⟩ := h
      subst h1; subst h2; subst h3
      simpa using fenceHere_spec hfh
    | none =>
      rw [hfh] at h
      cases hff : findFence cs with
      | none => rw [hff] at h; simp at h
      | some q =>
        obtain ⟨g', m', rst'⟩ := q
        rw [hff] at h
        simp only [Option.map_some', Option.some.injEq, Prod.mk.injEq] at h
        obtain ⟨h1, h2, h3⟩ := h
        subst h1; subst h2; subst h3
        have := ih g' m' rst' hff
        rw [this]
        simp

theorem splitFenceAux_join : ∀ fuel l, (splitFenceAux fuel l).flatten = l := by
  intro fuel
  induction fuel with
  | zero => intro l; simp [splitFenceAux]
  | succ n ih =>
    intro l
    rw [splitFenceAux]
    cases hf : findFence l with
    | none => simp
    | some p =>
      obtain ⟨g, m, rest⟩ := p
      simp only [List.flatten_cons]
      rw [ih rest]
      have := findFence_spec l g m rest hf
      rw [this]
      simp

theorem dropWhile_suf (p : Char → Bool) : ∀ l : List Char, l.dropWhile p <:+ l := by
  intro l
  induction l with
  | nil => exact ⟨[], rfl⟩
  | cons c t ih =>
    rw [List.dropWhile]
    cases hp : p c with
    | true => exact suf_ext (a := [c]) ih
    | false => exact ⟨[], rfl⟩

theorem dropWhile_all {p : Char → Bool} : ∀ {l : List Char}, l.dropWhile p = [] →
    ∀ c ∈ l, p c = true := by
  intro l
  induction l with
  | nil => intro _ c hc; simp at hc
  | cons a t ih =>
    intro h c hc
    rw [List.dropWhile] at h
    cases hp : p a with
    | false => rw [hp] at h; simp at h
    | true =>
      rw [hp] at h
      rcases List.mem_cons.mp hc with rfl | hmem
      · exact hp
      · exact ih h c hmem

theorem dropWhile_append_all {p : Char → Bool} : ∀ {w l : List Char},
    (∀ c ∈ w, p c = true) → (w ++ l).dropWhile p = l.dropWhile p := by
  intro w
  induction w with
  | nil => intro l _; rfl
  | cons a w' ih =>
    intro l hw
    rw [List.cons_append, List.dropWhile, hw a (by simp)]
    exact ih fun c hc => hw c (by simp [hc])

theorem trimChars_pre (l : List Char) : trimChars l <+: l.dropWhile isJsWs := by
  rw [trimChars]
  have h := dropWhile_suf isJsWs (l.dropWhile isJsWs).reverse
  rw [suf_iff_rev] at h
  simpa using h

theorem listLine_facts {l : List Char}
    (h : "* ".data.isPrefixOf (trimChars l) = true) :
    "## ".data.isPrefixOf l = false ∧ "### ".data.isPrefixOf l = false ∧
    (trimChars l).isEmpty = false := by
  obtain ⟨w, hw⟩ := isPrefixOfE h
  refine ⟨?_, ?_, ?_⟩
  · cases hpb : "## ".data.isPrefixOf l with
    | false => rfl
    | true =>
      exfalso
      obtain ⟨r, hr⟩ := isPrefixOfE hpb
      have hdl : l.dropWhile isJsWs = l := by
        rw [← hr]
        show ('#' :: '#' :: ' ' :: r).dropWhile isJsWs = '#' :: '#' :: ' ' :: r
        rw [List.dropWhile_cons, if_neg (by decide)]
      have hpre : trimChars l <+: l := by
        conv_rhs => rw [← hdl]
        exact trimChars_pre l
      have : "* ".data <+: l := List.IsPrefix.trans ⟨w, hw⟩ hpre
      obtain ⟨r2, hr2⟩ := this
      rw [← hr] at hr2
      simp at hr2
  · cases hpb : "### ".data.isPrefixOf l with
    | false => rfl
    | true =>
      exfalso
      obtain ⟨r, hr⟩ := isPrefixOfE hpb
      have hdl : l.dropWhile isJsWs = l := by
        rw [← hr]
        show ('#' :: '#' :: '#' :: ' ' :: r).dropWhile isJsWs = '#' :: '#' :: '#' :: ' ' :: r
        rw [List.dropWhile_cons, if_neg (by decide)]
      have hpre : trimChars l <+: l := by
        conv_rhs => rw [← hdl]
        exact trimChars_pre l
      have : "* ".data <+: l := List.IsPrefix.trans ⟨w, hw⟩ hpre
      obtain ⟨r2, hr2⟩ := this
      rw [← hr] at hr2
      simp at hr2
  · rw [← hw]
    rfl

theorem processLines_all_list : ∀ ls buf elems,
    (∀ l ∈ ls, "* ".data.isPrefixOf (trimChars l) = true) →
    processLines ls buf elems = flushNodes (buf ++ ls) elems := by
  intro ls
  induction ls with
  | nil => intro buf elems _; simp [processLines]
  | cons line rest ih =>
    intro buf elems h
    have hl := h line (by simp)
    obtain ⟨ha, hb, _⟩ := listLine_facts hl
    rw [processLines]
    rw [if_neg (by simp [ha]), if_neg (by simp [hb]), if_pos hl]
    rw [ih (buf ++ [line]) elems fun l hm => h l (by simp [hm])]
    congr 1
    simp

theorem heading_after_ws_is_para {w r line : List Char} (hw : w ≠ [])
    (hws : ∀ c ∈ w, isJsWs c = true) (hline : line = w ++ "## ".data ++ r) :
    processLines [line] [] [] = [Node.para (applyFmtL line)] := by
  have hnh2 : "## ".data.isPrefixOf line = false := by
    cases hpb : "## ".data.isPrefixOf line with
    | false => rfl
    | true =>
      exfalso
      obtain ⟨t, ht⟩ := isPrefixOfE hpb
      cases w with
      | nil => exact hw rfl
      | cons a w' =>
        rw [hline] at ht
        simp only [List.cons_append, List.append_assoc] at ht
        have ha : a = '#' := by
          have := List.cons.injEq .. ▸ ht
          exact this.1.symm
        have := hws a (by simp)
        rw [ha] at this
        simp [isJsWs] at this
  have hnh3 : "### ".data.isPrefixOf line = false := by
    cases hpb : "### ".data.isPrefixOf line with
    | false => rfl
    | true =>
      exfalso
      obtain ⟨t, ht⟩ := isPrefixOfE hpb
      cases w with
      | nil => exact hw rfl
      | cons a w' =>
        rw [hline] at ht
        simp only [List.cons_append, List.append_assoc] at ht
        have ha : a = '#' := by
          have := List.cons.injEq .. ▸ ht
          exact this.1.symm
        have := hws a (by simp)
        rw [ha] at this
        simp [isJsWs] at this
  have hdrop : line.dropWhile isJsWs = '#' :: ('#' :: ' ' :: r) := by
    rw [hline]
    rw [List.append_assoc]
    rw [dropWhile_append_all hws]
    rw [show "## ".data ++ r = '#' :: '#' :: ' ' :: r by simp]
    rw [List.dropWhile]
    simp [isJsWs]
  have htrimpre : trimChars line <+: '#' :: '#' :: ' ' :: r := by
    rw [← hdrop]; exact trimChars_pre line
  have hnl : "* ".data.isPrefixOf (trimChars line) = false := by
    cases hpb : "* ".data.isPrefixOf (trimChars line) with
    | false => rfl
    | true =>
      exfalso
      have : "* ".data <+: '#' :: '#' :: ' ' :: r :=
        List.IsPrefix.trans (isPrefixOfE hpb) htrimpre
      obtain ⟨t, ht⟩ := this
      simp at ht
  have hne : (trimChars line).isEmpty = false := by
    cases hpb : (trimChars line).isEmpty with
    | false => rfl
    | true =>
      exfalso
      have hempty : trimChars line = [] := by
        cases htc : trimChars line with
        | nil => rfl
        | cons x xs => rw [htc] at hpb; simp at hpb
      rw [trimChars, hdrop] at hempty
      have : ('#' :: '#' :: ' ' :: r).reverse.dropWhile isJsWs = [] := by
        have := congrArg List.reverse hempty
        simpa using this
      have hall := dropWhile_all this '#' (by simp)
      simp [isJsWs] at hall
  rw [processLines]
  rw [if_neg (by simp [hnh2]), if_neg (by simp [hnh3]), if_neg (by simp [hnl]),
    if_neg (by simp [hne])]
  rw [processLines]
  rfl

/-- C1: for every input string, the rendered output of the inline
formatter contains no raw opening angle bracket other than those starting
the fixed emitted tag set, no raw closing angle bracket other than those
ending it, and no ampersand outside the three emitted entity references;
in particular an injected script tag never appears in the output, and the
code-block escape pass satisfies the same safety predicate. -/
theorem claim_c1 (s : String) :
    Good (applyInlineFormatting s).data ∧
    ¬ ("<script".data <:+: (applyInlineFormatting s).data) ∧
    Good (escapeHtml s.data) := by
  have hg : Good (applyFmtL s.data) := good_applyFmtL s.data
  exact ⟨hg, good_no_script hg, good_escape s.data⟩

/-- C2: the javascript-scheme link input renders as literal escaped plain
text containing no anchor tag, and every successful link match produces a
URL that begins with the http or https scheme and contains no whitespace
and no closing parenthesis. -/
theorem claim_c2 :
    applyInlineFormatting "[click](javascript:alert(1))" = "[click](javascript:alert(1))" ∧
    '<' ∉ (applyInlineFormatting "[click](javascript:alert(1))").data ∧
    (∀ l label url rest, linkTry l = some (label, url, rest) →
      ("http://".data <+: url ∨ "https://".data <+: url) ∧
      (∀ c ∈ url, isJsWs c = false ∧ c ≠ ')')) := by
  refine ⟨by decide, by decide, ?_⟩
  intro l label url rest h
  exact (linkTry_spec h).2

/-- Witness for C2 on the concrete match of a valid http link. -/
theorem claim_c2_witness :
    ("http://".data <+: "http://x".data ∨ "https://".data <+: "http://x".data) ∧
    (∀ c ∈ "http://x".data, isJsWs c = false ∧ c ≠ ')') :=
  claim_c2.2.2 "[a](http://x)".data "a".data "http://x".data [] (by decide)

/-- C3 counterexample: the unterminated fence input does produce a
CodeBlock node, contrary to the claim that it is treated as ordinary
non-fenced text. -/
theorem claim_c3_cex :
    renderContent "```abc" = [BlockOut.code "```abc".data] := by decide

/-- C3 as amended: the splitter itself never matches across end of input
(the unterminated fence yields no fenced match, the whole input stays one
block), but the renderer classifies any block starting with a triple
backtick as a code block, so the unterminated region is emitted as a
CodeBlock node rather than as ordinary text. -/
theorem claim_c3 :
    splitFence "```abc".data = ["```abc".data] ∧
    renderBlock "```abc".data = BlockOut.code "```abc".data ∧
    renderContent "```" = [BlockOut.code []] := by
  refine ⟨by decide, by decide, by decide⟩

/-- C4 counterexample: inline code around a bold marker does not keep the
literal text; the output code span contains a strong tag and no asterisk
at all, because the bold rule runs before the inline-code rule. -/
theorem claim_c4_cex :
    applyInlineFormatting "`**x**`" = ⟨codeT1 ++ "<strong>x</strong>".data ++ codeT2⟩ ∧
    '*' ∉ (applyInlineFormatting "`**x**`").data := by
  refine ⟨by decide, by decide⟩

/-- C4 as amended: the inline-code rule is applied last, after the link,
bold and italic rules, so markup between backticks is transformed by the
earlier rules; the code span content for the bold example is a nested
strong span, not the literal asterisks. -/
theorem claim_c4 :
    applyFmtL "`**x**`".data = codeT1 ++ (strongT1 ++ "x".data ++ strongT2) ++ codeT2 := by
  decide

/-- C5: the HTML-escape pre-pass is applied exactly once per raw input
character (the chained replacements equal one characterwise expansion,
which is only possible when the ampersand pass runs before the angle
bracket passes), the raw ampersand entity input is escaped exactly once,
and no later stage of the pipeline re-escapes that output. -/
theorem claim_c5 :
    (∀ l, escapeHtml l = expandChar escChar l) ∧
    escapeHtml "&amp;".data = "&amp;amp;".data ∧
    applyInlineFormatting "&amp;" = "&amp;amp;" :=
  ⟨escapeHtml_eq_expand, by decide, by decide⟩

/-- C6: the block splitter is lossless and order preserving: concatenating
the produced blocks in order, fenced matches with their original
delimiters included, reconstructs the input exactly. -/
theorem claim_c6 (s : String) : (splitFence s.data).flatten = s.data :=
  splitFenceAux_join s.data.length s.data

/-- C7: the three-item list input produces exactly one List node whose
items are the inline-formatted item bodies in order, and in general a
block whose lines are all list-item lines is emitted as the single List
node flushed from the accumulated buffer. -/
theorem claim_c7 :
    renderContent "* a\n* b\n* c" =
      [BlockOut.text [Node.list [applyFmtL "a".data, applyFmtL "b".data, applyFmtL "c".data]]] ∧
    (∀ ls buf elems, (∀ l ∈ ls, "* ".data.isPrefixOf (trimChars l) = true) →
      processLines ls buf elems = flushNodes (buf ++ ls) elems) :=
  ⟨by decide, processLines_all_list⟩

/-- Witness for C7 on a concrete single-line list block. -/
theorem claim_c7_witness :
    processLines ["* x".data] [] [] = flushNodes ([] ++ ["* x".data]) [] :=
  claim_c7.2 ["* x".data] [] [] (by decide)

/-- C8: the renderer is total over all string inputs by construction (its
embedding returns a node sequence for every input), and the empty input
produces the empty node sequence. -/
theorem claim_c8 :
    renderContent "" = [] ∧ ∀ s, ∃ ns, renderContent s = ns :=
  ⟨rfl, fun s => ⟨renderContent s, rfl⟩⟩

/-- C9: the interaction shell never has two generation requests in
flight: while one is loading another click issues no new request, an
empty or whitespace-only prompt issues none either, and every reachable
shell state has at most one outstanding request. -/
theorem claim_c9 :
    (∀ s : ShellState, s.isLoading = true → handleGeneratePostStart s = (s, false)) ∧
    (∀ s : ShellState, (trimChars s.prompt.data).isEmpty = true →
      handleGeneratePostStart s = (s, false)) ∧
    (∀ s : ShellState, ShellReachable s → s.inFlight ≤ 1) := by
  refine ⟨?_, ?_, ?_⟩
  · intro s h
    unfold handleGeneratePostStart
    rw [if_pos (by simp [h])]
  · intro s h
    unfold handleGeneratePostStart
    rw [if_pos (by simp [h])]
  · intro s h
    exact (shellInv_reachable h).1

/-- Witness for C9 at a loading state, a whitespace-prompt state, and the
initial state. -/
theorem claim_c9_witness :
    handleGeneratePostStart ⟨"topic", true, none, "", 1⟩ = (⟨"topic", true, none, "", 1⟩, false) ∧
    handleGeneratePostStart ⟨"  ", false, none, "", 0⟩ = (⟨"  ", false, none, "", 0⟩, false) ∧
    initShell.inFlight ≤ 1 :=
  ⟨claim_c9.1 _ rfl, claim_c9.2.1 _ (by decide), claim_c9.2.2 initShell ShellReachable.init⟩

/-- C10: heading detection is not whitespace tolerant while list-item
detection is: any line that is nonempty whitespace followed by a
heading-2 marker is emitted as a Paragraph node, and concretely the
indented heading line renders as a paragraph while the indented list
marker is recognized as a list item. -/
theorem claim_c10 :
    (∀ w r line, w ≠ [] → (∀ c ∈ w, isJsWs c = true) → line = w ++ "## ".data ++ r →
      processLines [line] [] [] = [Node.para (applyFmtL line)]) ∧
    renderContent "  ## Title" = [BlockOut.text [Node.para (applyFmtL "  ## Title".data)]] ∧
    renderContent "  * x" = [BlockOut.text [Node.list [applyFmtL "* x".data]]] := by
  refine ⟨?_, by decide, by decide⟩
  intro w r line hw hws hline
  exact heading_after_ws_is_para hw hws hline

/-- Witness for C10 on the concrete indented heading line. -/
theorem claim_c10_witness :
    processLines ["  ## Title".data] [] [] = [Node.para (applyFmtL "  ## Title".data)] :=
  claim_c10.1 "  ".data "Title".data "  ## Title".data (by decide) (by decide) (by decide)
